import Mathlib

/-!
Verification of the deterministic string core of the property-listing studio
repository.

This file gives a shallow embedding of the deterministic string logic of the
studio repository: the story caption line-splitter (`handleCopyToClipboard` in
`src/app/page.tsx`), the feature-flow semicolon repair step
(`formatPropertyFeaturesFlow` in `src/ai/flows/format-property-features.ts`),
the story-flow pipe-strip step (`generateStoryTextFlow`), the currency and
number formatters, and the description assembly of `onSubmit`.

JavaScript strings are modelled as `List Char`.  All characters appearing in
this application's data are in the basic multilingual plane, where JavaScript's
UTF-16 `length` coincides with the code-point count used here.
-/

/-- Convert a Lean string literal to the `List Char` model of a JS string. -/
def strOf (s : String) : List Char := s.data

/-- Model of the JS whitespace test used by `String.prototype.trim`. -/
def jsWs (c : Char) : Bool := c.isWhitespace

/-- Remove leading whitespace (the front half of JS `trim`). -/
def trimStart (l : List Char) : List Char := l.dropWhile jsWs

/-- Remove trailing whitespace (the back half of JS `trim`). -/
def trimEnd (l : List Char) : List Char := (l.reverse.dropWhile jsWs).reverse

/-- Model of JS `String.prototype.trim`. -/
def jsTrim (l : List Char) : List Char := trimEnd (trimStart l)

/-- The three-character delimiter `" | "` used by the story caption pipeline. -/
def sepToks : List Char := [' ', '|', ' ']

/-- Scanner for `split(' | ')`: cut at each leftmost occurrence of `" | "`.
The accumulator holds the characters of the token currently being read. -/
def splitAux : List Char → List Char → List (List Char)
  | ' ' :: '|' :: ' ' :: rest, acc => acc :: splitAux rest []
  | c :: rest, acc => splitAux rest (acc ++ [c])
  | [], acc => [acc]

/-- Model of JS `s.split(' | ')`. -/
def splitSep (l : List Char) : List (List Char) := splitAux l []

/-- The greedy token loop of `handleCopyToClipboard` (`src/app/page.tsx`
lines 276-282): a token joins the first line when the prospective
`firstLine + part + ' | '` stays within 47 characters, otherwise it is
appended to the second line.  The `if f = []` tests mirror the JS
truthiness checks `firstLine ? ' | ' : ''` and `secondLine ? ' | ' : ''`. -/
def storySplitLoop : List (List Char) → List Char → List Char → List Char × List Char
  | [], f, s => (f, s)
  | p :: ps, f, s =>
    if (f ++ p ++ sepToks).length ≤ 47 then
      storySplitLoop ps (f ++ (if f = [] then [] else sepToks) ++ p) s
    else
      storySplitLoop ps f (s ++ (if s = [] then [] else sepToks) ++ p)

/-- The post-processing of `handleCopyToClipboard` (lines 284-287): trim both
lines, then strip one trailing `'|'` (re-trimming) from the first line only. -/
def trimLines (p : List Char × List Char) : List Char × List Char :=
  let f := jsTrim p.1
  let s := jsTrim p.2
  (if f.getLast? = some '|' then jsTrim f.dropLast else f, s)

/-- The splitter applied to an already-split token list. -/
def storySplitList (parts : List (List Char)) : List Char × List Char :=
  trimLines (storySplitLoop parts [] [])

/-- The full caption line-splitter of `handleCopyToClipboard`: split the
generated story on `" | "`, distribute greedily, post-process. -/
def storySplit (caption : List Char) : List Char × List Char :=
  storySplitList (splitSep caption)

/-- The clipboard text of `handleCopyToClipboard` (line 290): the two lines
joined by a newline when the second is non-empty. -/
def storyTextToCopy (caption : List Char) : List Char :=
  let p := storySplit caption
  if p.2 = [] then p.1 else p.1 ++ '\n' :: p.2




/-- The semicolon repair step of `formatPropertyFeaturesFlow`
(`src/ai/flows/format-property-features.ts` lines 90-92): when the response is
a non-empty string that does not end with `';'`, one `';'` is appended; the
emptiness test mirrors the JS truthiness check `formattedFeatures && ...`. -/
def repairSemicolon (s : List Char) : List Char :=
  if s ≠ [] ∧ s.getLast? ≠ some ';' then s ++ [';'] else s

/-- The pipe-strip step of `generateStoryTextFlow` (lines 77-84 of the story
flow): trim, drop one leading `'|'` (re-trimming), drop one trailing `'|'`
(re-trimming). -/
def stripPipes (s : List Char) : List Char :=
  let t := jsTrim s
  let t := if t.head? = some '|' then jsTrim (t.drop 1) else t
  if t.getLast? = some '|' then jsTrim t.dropLast else t

/-- Model of JS `s.split('\n')`. -/
def splitLines : List Char → List (List Char)
  | [] => [[]]
  | c :: rest =>
    if c = '\n' then [] :: splitLines rest
    else
      match splitLines rest with
      | [] => [[c]]
      | l :: ls => (c :: l) :: ls

/-- The spec's notion of the last non-empty line of a feature block
(`spec.md` §8.1): the last line of the `'\n'`-split that is non-empty. -/
def lastNonEmptyLine (s : List Char) : Option (List Char) :=
  ((splitLines s).filter (fun l => !l.isEmpty)).getLast?

/-- Model of `valueStr.replace(/R\$\s*/g, "")` in `formatCurrency`
(`src/app/page.tsx` line 100): every occurrence of `"R$"` is removed together
with the whitespace run that follows it.  The flag records whether the scanner
is inside such a whitespace run. -/
def stripCM (sk : Bool) : List Char → List Char
  | [] => []
  | 'R' :: '$' :: rest => stripCM true rest
  | c :: rest => if sk ∧ jsWs c then stripCM sk rest else c :: stripCM false rest

/-- Model of JS `s.replace(',', '.')`: only the first comma is replaced. -/
def replaceFirstComma : List Char → List Char
  | [] => []
  | ',' :: rest => '.' :: rest
  | c :: rest => c :: replaceFirstComma rest

/-- Digit list of a numeral string, most significant first. -/
def natOfDigits (ds : List Char) : ℕ :=
  ds.foldl (fun n c => 10 * n + (c.toNat - '0'.toNat)) 0

/-- Model of JS `parseFloat` on the plain decimal literals this formatter can
produce (optional sign, digits, optional fractional part; no exponent and no
`Infinity`, which cannot arise from the price pipeline).  `none` models `NaN`;
a parsed literal is carried exactly as a scaled decimal `(m, e)` denoting
`m / 10 ^ e` (the claim's values are exactly representable, so the float
rounding of the source is the identity on them). -/
def jsParseFloat (l : List Char) : Option (Int × ℕ) :=
  let l := l.dropWhile jsWs
  let sl : Int × List Char :=
    match l with
    | '-' :: r => (-1, r)
    | '+' :: r => (1, r)
    | _ => (1, l)
  let intDs := sl.2.takeWhile Char.isDigit
  let rest := sl.2.dropWhile Char.isDigit
  let fracDs : List Char :=
    match rest with
    | '.' :: r => r.takeWhile Char.isDigit
    | _ => []
  if intDs = [] ∧ fracDs = [] then none
  else
    some (sl.1 * (natOfDigits intDs * 10 ^ fracDs.length + natOfDigits fracDs),
      fracDs.length)

/-- Insert `'.'` thousands separators into a reversed digit list. -/
def groupRev : List Char → List Char
  | d1 :: d2 :: d3 :: d4 :: rest => d1 :: d2 :: d3 :: '.' :: groupRev (d4 :: rest)
  | l => l

/-- pt-BR thousands grouping of a digit string. -/
def groupDigits (ds : List Char) : List Char := (groupRev ds.reverse).reverse

/-- Model of `Intl.NumberFormat("pt-BR", {style:"currency",currency:"BRL"})`:
`R$`, a no-break space, the dot-grouped integer part, a comma and two cent
digits.  The value `m / 10 ^ e` is rounded half-away to cents
(`⌊|v| * 100 + 1/2⌋`, in integer arithmetic); on the exact-cent values this
program formats, all of Intl's rounding modes agree with this rounding. -/
def formatBRL (m : Int) (e : ℕ) : List Char :=
  let cents : ℕ := (m.natAbs * 200 + 10 ^ e) / (2 * 10 ^ e)
  let i := cents / 100
  let c := cents % 100
  (if m < 0 then ['-'] else []) ++ strOf "R$" ++[' '] ++
    groupDigits (Nat.repr i).data ++ [','] ++
    (if c < 10 then '0' :: (Nat.repr c).data else (Nat.repr c).data)

/-- `formatCurrency` of `src/app/page.tsx` lines 99-108: strip the currency
marker and trim, delete all `'.'`, turn the first `','` into `'.'`, parse as a
number; on parse failure return the original string unchanged, otherwise
format as BRL currency. -/
def formatCurrency (valueStr : List Char) : List Char :=
  let s := jsTrim (stripCM false valueStr)
  let s := s.filter (fun c => c ≠ '.')
  let s := replaceFirstComma s
  match jsParseFloat s with
  | none => valueStr
  | some me => formatBRL me.1 me.2

/-- Model of `Intl.NumberFormat('pt-BR').format` on the whole-number areas
this form produces: dot-grouped integer digits. -/
def formatNumberPtBR (n : ℕ) : List Char := groupDigits (Nat.repr n).data

/-- Model of JS `toUpperCase` on the ASCII field values this form handles. -/
def jsToUpper (l : List Char) : List Char := l.map Char.toUpper

/-- The description assembly of `onSubmit` (`src/app/page.tsx` lines 119-141):
the ordered parts list, joined with `'\n'` (so no trailing newline). -/
def assembleDescription (codigo valor bairro cidade descricaoAdicional
    formattedFeatures : List Char) (areaTotal areaPrivada : ℕ) : List Char :=
  let location := jsToUpper bairro ++ strOf " - " ++ jsToUpper cidade ++ strOf "/MG"
  let parts : List (List Char) :=
    [location, [], strOf "Código do imóvel: " ++ codigo] ++
    (if jsTrim descricaoAdicional ≠ [] then [[], jsTrim descricaoAdicional] else []) ++
    [[], strOf "CARACTERÍSTICAS PRINCIPAIS:", trimStart formattedFeatures, []] ++
    [strOf "Área Total: " ++ formatNumberPtBR areaTotal ++ strOf " m²",
     strOf "Área Privada: " ++ formatNumberPtBR areaPrivada ++ strOf " m²",
     strOf "💰VALOR: " ++ formatCurrency valor, [],
     strOf "Agende uma visita hoje mesmo com nossa equipe:",
     strOf "📲(31) 9 9859 0590 / 3058-1600",
     strOf "Avenida Acadêmico Nilo Figueiredo, 3273, Santos Dumont II, Lagoa Santa/MG"]
  List.intercalate ['\n'] parts

/-- The submission outcome of `onSubmit` (`src/app/page.tsx` lines 110-153):
the description is cleared on entry; when the adapter result is missing or its
text field is empty the guard at line 115 throws before any assembly, the
catch shows an error toast and the displayed description stays cleared.
Returns (displayed description, whether the error toast was shown). -/
def onSubmitResult (codigo valor bairro cidade descricaoAdicional : List Char)
    (areaTotal areaPrivada : ℕ) (aiResult : Option (List Char)) :
    List Char × Bool :=
  match aiResult with
  | none => ([], true)
  | some fs =>
    if fs = [] then ([], true)
    else (assembleDescription codigo valor bairro cidade descricaoAdicional fs
            areaTotal areaPrivada, false)

/-- Does `pat` occur at the start of `l`? -/
def startsList : List Char → List Char → Bool
  | [], _ => true
  | _ :: _, [] => false
  | p :: ps, c :: cs => p = c && startsList ps cs

/-- Does `pat` occur contiguously anywhere in `l`? -/
def hasSub (pat : List Char) : List Char → Bool
  | [] => startsList pat []
  | c :: cs => startsList pat (c :: cs) || hasSub pat cs

/-- `" | "`-join of a token list (the shape in which the splitter builds its
output lines). -/
def joinSep : List (List Char) → List Char
  | [] => []
  | [t] => t
  | t :: ts => t ++ sepToks ++ joinSep ts

/-- Tokens read back from an output line: an empty line carries no tokens, a
non-empty one is split on `" | "`. -/
def recoveredToks (line : List Char) : List (List Char) :=
  if line = [] then [] else splitSep line

/-- List-level mirror of `storySplitLoop`, used to state which tokens each
output line carries; its guard is literally the loop's guard on the joined
first line. -/
def storySplitToks : List (List Char) → List (List Char) → List (List Char) →
    List (List Char) × List (List Char)
  | [], f, s => (f, s)
  | p :: ps, f, s =>
    if (joinSep f ++ p ++ sepToks).length ≤ 47 then
      storySplitToks ps (f ++ [p]) s
    else
      storySplitToks ps f (s ++ [p])







/-! ## Trimming lemmas -/

theorem length_dropWhile_le (p : Char → Bool) (l : List Char) :
    (l.dropWhile p).length ≤ l.length := by
  induction l with
  | nil => simp
  | cons a l ih =>
    rw [List.dropWhile_cons]
    split
    · exact le_trans ih (by simp)
    · simp

theorem jsTrim_length_le (l : List Char) : (jsTrim l).length ≤ l.length := by
  unfold jsTrim trimEnd trimStart
  calc ((l.dropWhile jsWs).reverse.dropWhile jsWs).reverse.length
      = ((l.dropWhile jsWs).reverse.dropWhile jsWs).length := by simp
    _ ≤ (l.dropWhile jsWs).reverse.length := length_dropWhile_le _ _
    _ = (l.dropWhile jsWs).length := by simp
    _ ≤ l.length := length_dropWhile_le _ _

theorem trimStart_eq_self {l : List Char} (h : ∀ c ∈ l.head?, jsWs c = false) :
    trimStart l = l := by
  cases l with
  | nil => rfl
  | cons a l =>
    have : jsWs a = false := h a rfl
    simp [trimStart, List.dropWhile_cons, this]

theorem trimEnd_eq_self {l : List Char} (h : ∀ c ∈ l.getLast?, jsWs c = false) :
    trimEnd l = l := by
  unfold trimEnd
  rw [show l.reverse.dropWhile jsWs = l.reverse by
    cases hr : l.reverse with
    | nil => rfl
    | cons a r =>
      have ha : l.getLast? = some a := by
        rw [← List.head?_reverse, hr]; rfl
      rw [List.dropWhile_cons, h a ha]
      simp]
  simp

theorem jsTrim_eq_self {l : List Char} (h1 : ∀ c ∈ l.head?, jsWs c = false)
    (h2 : ∀ c ∈ l.getLast?, jsWs c = false) : jsTrim l = l := by
  unfold jsTrim
  rw [trimStart_eq_self h1, trimEnd_eq_self h2]

theorem trimStart_getLast? {l : List Char} {c : Char} (h : l.getLast? = some c)
    (hc : jsWs c = false) : (trimStart l).getLast? = some c := by
  obtain ⟨ys, rfl⟩ := List.getLast?_eq_some_iff.mp h
  unfold trimStart
  rw [List.dropWhile_append]
  split
  · simp [List.dropWhile_cons, hc]
  · exact List.getLast?_concat _


theorem jsTrim_getLast? {l : List Char} {c : Char} (h : l.getLast? = some c)
    (hc : jsWs c = false) : (jsTrim l).getLast? = some c := by
  unfold jsTrim
  have h1 : (trimStart l).getLast? = some c := trimStart_getLast? h hc
  rw [trimEnd_eq_self (by intro d hd; rw [h1] at hd; cases hd; exact hc)]
  exact h1

/-! ## Budget of the first caption line -/

theorem storySplitLoop_fst_length {ps : List (List Char)} {f s : List Char}
    (h : f.length ≤ 47) : ((storySplitLoop ps f s).1).length ≤ 47 := by
  induction ps generalizing f s with
  | nil => simpa [storySplitLoop] using h
  | cons p ps ih =>
    rw [storySplitLoop]
    split
    · apply ih
      rename_i hcond
      simp only [List.length_append, sepToks, List.length_cons, List.length_nil] at hcond
      by_cases hf : f = []
      · simp [hf]
        omega
      · simp [hf, sepToks]
        omega
    · exact ih h

theorem trimLines_fst_length (p : List Char × List Char) :
    ((trimLines p).1).length ≤ p.1.length := by
  simp only [trimLines]
  split
  · calc (jsTrim (jsTrim p.1).dropLast).length
        ≤ (jsTrim p.1).dropLast.length := jsTrim_length_le _
      _ ≤ (jsTrim p.1).length := by simp [List.length_dropLast]
      _ ≤ p.1.length := jsTrim_length_le _
  · exact jsTrim_length_le _

/-! ## Joined-line structure of the splitter output -/

theorem joinSep_cons_cons (t u : List Char) (ts : List (List Char)) :
    joinSep (t :: u :: ts) = t ++ sepToks ++ joinSep (u :: ts) := rfl

theorem joinSep_eq_nil_iff {F : List (List Char)} (hF : ∀ t ∈ F, t ≠ []) :
    joinSep F = [] ↔ F = [] := by
  cases F with
  | nil => simp [joinSep]
  | cons t ts =>
    cases ts with
    | nil =>
      simp only [joinSep]
      exact ⟨fun h => absurd h (hF t (by simp)), fun h => by cases h⟩
    | cons u ts =>
      rw [joinSep_cons_cons]
      constructor
      · intro h
        have := congrArg List.length h
        simp [sepToks] at this
      · intro h; cases h

theorem joinSep_snoc (F : List (List Char)) (p : List Char) :
    joinSep (F ++ [p]) = joinSep F ++ (if F = [] then [] else sepToks) ++ p := by
  induction F with
  | nil => simp [joinSep]
  | cons t ts ih =>
    cases ts with
    | nil => simp [joinSep, joinSep_cons_cons]
    | cons u ts =>
      have h1 : (t :: u :: ts) ++ [p] = t :: ((u :: ts) ++ [p]) := rfl
      have h2 : (u :: ts) ++ [p] = u :: (ts ++ [p]) := rfl
      rw [h1, h2, joinSep_cons_cons, ← h2, ih]
      simp [joinSep_cons_cons, List.append_assoc]

theorem joinSep_head? {t : List Char} {ts : List (List Char)} (ht : t ≠ []) :
    (joinSep (t :: ts)).head? = t.head? := by
  cases ts with
  | nil => rfl
  | cons u ts =>
    rw [joinSep_cons_cons]
    rw [List.append_assoc, List.head?_append_of_ne_nil _ ht]

theorem joinSep_getLast? {F : List (List Char)} {u : List Char}
    (h : F.getLast? = some u) (hu : u ≠ []) :
    (joinSep F).getLast? = u.getLast? := by
  induction F with
  | nil => cases h
  | cons t ts ih =>
    cases ts with
    | nil =>
      simp only [List.getLast?_singleton] at h
      cases h
      rfl
    | cons v ts =>
      rw [joinSep_cons_cons]
      have h2 : (v :: ts).getLast? = some u := by
        rw [← h]; symm; exact List.getLast?_cons_cons
      rw [List.getLast?_append]
      rw [ih h2]
      have : u.getLast?.isSome := by
        rw [Option.isSome_iff_ne_none]
        intro hn
        exact hu (List.getLast?_eq_none_iff.mp hn)
      cases hu' : u.getLast? with
      | none => rw [hu'] at this; cases this
      | some c => simp

theorem trimEnd_length_le (l : List Char) : (trimEnd l).length ≤ l.length := by
  unfold trimEnd
  calc (l.reverse.dropWhile jsWs).reverse.length
      = (l.reverse.dropWhile jsWs).length := by simp
    _ ≤ l.reverse.length := length_dropWhile_le _ _
    _ = l.length := by simp

theorem head?_dropWhile_ws {l : List Char} {c : Char}
    (h : (l.dropWhile jsWs).head? = some c) : jsWs c = false := by
  induction l with
  | nil => cases h
  | cons a r ih =>
    rw [List.dropWhile_cons] at h
    split at h
    · exact ih h
    · cases h
      rename_i hg
      simpa using hg

theorem trimEnd_prefix_rest (l : List Char) :
    l = trimEnd l ++ (l.reverse.takeWhile jsWs).reverse := by
  unfold trimEnd
  rw [← List.reverse_append, List.takeWhile_append_dropWhile, List.reverse_reverse]

theorem getLast?_jsTrim_not_ws {t : List Char} {c : Char}
    (h : (jsTrim t).getLast? = some c) : jsWs c = false := by
  unfold jsTrim trimEnd at h
  rw [List.getLast?_reverse] at h
  exact head?_dropWhile_ws h

theorem last_not_ws_of_jsTrim_eq {t : List Char} (h : jsTrim t = t) :
    ∀ c ∈ t.getLast?, jsWs c = false := by
  intro c hc
  exact getLast?_jsTrim_not_ws (by rw [h]; exact hc)

theorem head_not_ws_of_jsTrim_eq {t : List Char} (h : jsTrim t = t) :
    ∀ c ∈ t.head?, jsWs c = false := by
  intro c hc
  have hne : t ≠ [] := by intro h0; rw [h0] at hc; cases hc
  have hts : trimStart t ≠ [] := by
    intro h0
    apply hne
    rw [← h]
    unfold jsTrim
    rw [h0]
    rfl
  obtain ⟨d, hd⟩ : ∃ d, (trimStart t).head? = some d := by
    cases hh : (trimStart t).head? with
    | none => exact absurd (List.head?_eq_none_iff.mp hh) hts
    | some d => exact ⟨d, rfl⟩
  have hdws : jsWs d = false := head?_dropWhile_ws hd
  have hje : (jsTrim t).head? = (trimStart t).head? := by
    unfold jsTrim
    have hpre := trimEnd_prefix_rest (trimStart t)
    have htre : trimEnd (trimStart t) ≠ [] := by
      intro h0
      apply hne
      rw [← h]
      unfold jsTrim
      exact h0
    conv_rhs => rw [hpre]
    rw [List.head?_append_of_ne_nil _ htre]
  rw [h] at hje
  rw [hc, hd] at hje
  cases hje
  exact hdws

theorem jsTrim_joinSep {F : List (List Char)} (hne : ∀ t ∈ F, t ≠ [])
    (htr : ∀ t ∈ F, jsTrim t = t) : jsTrim (joinSep F) = joinSep F := by
  cases hF : F with
  | nil => rfl
  | cons t ts =>
    apply jsTrim_eq_self
    · rw [joinSep_head? (hne t (by rw [hF]; simp))]
      intro c hc
      exact head_not_ws_of_jsTrim_eq (htr t (by rw [hF]; simp)) c hc
    · obtain ⟨u, hu⟩ : ∃ u, (t :: ts).getLast? = some u := by
        cases hl : (t :: ts).getLast? with
        | none => exact absurd (List.getLast?_eq_none_iff.mp hl) (by simp)
        | some u => exact ⟨u, rfl⟩
      have humem : u ∈ F := by
        rw [hF]
        exact List.mem_of_mem_getLast? hu
      rw [joinSep_getLast? hu (hne u humem)]
      intro c hc
      exact last_not_ws_of_jsTrim_eq (htr u humem) c hc

theorem joinSep_getLast_ne_pipe {F : List (List Char)} (hne : ∀ t ∈ F, t ≠ [])
    (hp : ∀ t ∈ F, t.getLast? ≠ some '|') :
    (joinSep F).getLast? ≠ some '|' := by
  cases hF : F with
  | nil => simp [joinSep]
  | cons t ts =>
    obtain ⟨u, hu⟩ : ∃ u, (t :: ts).getLast? = some u := by
      cases hl : (t :: ts).getLast? with
      | none => exact absurd (List.getLast?_eq_none_iff.mp hl) (by simp)
      | some u => exact ⟨u, rfl⟩
    have humem : u ∈ F := by rw [hF]; exact List.mem_of_mem_getLast? hu
    rw [joinSep_getLast? hu (hne u humem)]
    exact hp u humem

theorem trimLines_joinSep {F S : List (List Char)}
    (hF : ∀ t ∈ F, t ≠ [] ∧ jsTrim t = t ∧ t.getLast? ≠ some '|')
    (hS : ∀ t ∈ S, t ≠ [] ∧ jsTrim t = t ∧ t.getLast? ≠ some '|') :
    trimLines (joinSep F, joinSep S) = (joinSep F, joinSep S) := by
  have hFtrim : jsTrim (joinSep F) = joinSep F :=
    jsTrim_joinSep (fun t ht => (hF t ht).1) (fun t ht => (hF t ht).2.1)
  have hStrim : jsTrim (joinSep S) = joinSep S :=
    jsTrim_joinSep (fun t ht => (hS t ht).1) (fun t ht => (hS t ht).2.1)
  have hFpipe : (joinSep F).getLast? ≠ some '|' :=
    joinSep_getLast_ne_pipe (fun t ht => (hF t ht).1) (fun t ht => (hF t ht).2.2)
  simp only [trimLines, hFtrim, hStrim, if_neg hFpipe]

theorem storySplitLoop_joinSep {ps F S : List (List Char)}
    (hF : ∀ t ∈ F, t ≠ []) (hS : ∀ t ∈ S, t ≠ []) (hps : ∀ t ∈ ps, t ≠ []) :
    storySplitLoop ps (joinSep F) (joinSep S) =
      (joinSep (storySplitToks ps F S).1, joinSep (storySplitToks ps F S).2) := by
  induction ps generalizing F S with
  | nil => simp [storySplitLoop, storySplitToks]
  | cons p ps ih =>
    have hifF : (if joinSep F = [] then ([] : List Char) else sepToks) =
        (if F = [] then [] else sepToks) := by
      by_cases h0 : F = []
      · simp [h0, joinSep]
      · rw [if_neg h0, if_neg (fun hj => h0 ((joinSep_eq_nil_iff hF).mp hj))]
    have hifS : (if joinSep S = [] then ([] : List Char) else sepToks) =
        (if S = [] then [] else sepToks) := by
      by_cases h0 : S = []
      · simp [h0, joinSep]
      · rw [if_neg h0, if_neg (fun hj => h0 ((joinSep_eq_nil_iff hS).mp hj))]
    rw [storySplitLoop, storySplitToks]
    split
    · rw [hifF, ← joinSep_snoc]
      have hF' : ∀ t ∈ F ++ [p], t ≠ [] := by
        intro t ht
        rcases List.mem_append.mp ht with h | h
        · exact hF t h
        · rw [List.mem_singleton.mp h]; exact hps p (by simp)
      exact ih hF' hS (fun t ht => hps t (by simp [ht]))
    · rw [hifS, ← joinSep_snoc]
      have hS' : ∀ t ∈ S ++ [p], t ≠ [] := by
        intro t ht
        rcases List.mem_append.mp ht with h | h
        · exact hS t h
        · rw [List.mem_singleton.mp h]; exact hps p (by simp)
      exact ih hF hS' (fun t ht => hps t (by simp [ht]))

theorem storySplitToks_perm (ps F S : List (List Char)) :
    ((storySplitToks ps F S).1 ++ (storySplitToks ps F S).2).Perm (F ++ S ++ ps) := by
  induction ps generalizing F S with
  | nil => simp [storySplitToks]
  | cons p ps ih =>
    rw [storySplitToks]
    split
    · refine (ih (F ++ [p]) S).trans ?_
      have h1 : (F ++ [p]) ++ S ++ ps = F ++ ([p] ++ (S ++ ps)) := by
        simp [List.append_assoc]
      have h2 : F ++ S ++ (p :: ps) = F ++ (S ++ (p :: ps)) := by
        simp [List.append_assoc]
      rw [h1, h2]
      exact List.Perm.append_left F (@List.perm_middle (List Char) p S ps).symm
    · refine (ih F (S ++ [p])).trans ?_
      have h1 : F ++ (S ++ [p]) ++ ps = F ++ S ++ (p :: ps) := by
        simp [List.append_assoc]
      rw [h1]

theorem storySplitToks_fst_sub (ps F S : List (List Char)) :
    ∃ u, (storySplitToks ps F S).1 = F ++ u ∧ u.Sublist ps := by
  induction ps generalizing F S with
  | nil => exact ⟨[], by simp [storySplitToks], List.nil_sublist _⟩
  | cons p ps ih =>
    rw [storySplitToks]
    split
    · obtain ⟨u, hu, hsub⟩ := ih (F ++ [p]) S
      exact ⟨p :: u, by simpa [List.append_assoc] using hu, List.Sublist.cons₂ p hsub⟩
    · obtain ⟨u, hu, hsub⟩ := ih F (S ++ [p])
      exact ⟨u, hu, List.Sublist.cons p hsub⟩

theorem storySplitToks_snd_sub (ps F S : List (List Char)) :
    ∃ u, (storySplitToks ps F S).2 = S ++ u ∧ u.Sublist ps := by
  induction ps generalizing F S with
  | nil => exact ⟨[], by simp [storySplitToks], List.nil_sublist _⟩
  | cons p ps ih =>
    rw [storySplitToks]
    split
    · obtain ⟨u, hu, hsub⟩ := ih (F ++ [p]) S
      exact ⟨u, hu, List.Sublist.cons p hsub⟩
    · obtain ⟨u, hu, hsub⟩ := ih F (S ++ [p])
      exact ⟨p :: u, by simpa [List.append_assoc] using hu, List.Sublist.cons₂ p hsub⟩

/-- Structure theorem for the splitter on a token list whose tokens are
non-empty, trimmed and do not end in a pipe: the two output lines are the
`" | "`-joins of two subsequences of the token list that together carry every
token exactly once. -/
theorem storySplitList_spec {parts : List (List Char)}
    (h : ∀ p ∈ parts, p ≠ [] ∧ jsTrim p = p ∧ p.getLast? ≠ some '|') :
    storySplitList parts = (joinSep (storySplitToks parts [] []).1,
        joinSep (storySplitToks parts [] []).2) ∧
      ((storySplitToks parts [] []).1 ++ (storySplitToks parts [] []).2).Perm parts ∧
      (storySplitToks parts [] []).1.Sublist parts ∧
      (storySplitToks parts [] []).2.Sublist parts := by
  have hne : ∀ p ∈ parts, p ≠ [] := fun p hp => (h p hp).1
  obtain ⟨u1, hu1, hsub1⟩ := storySplitToks_fst_sub parts [] []
  obtain ⟨u2, hu2, hsub2⟩ := storySplitToks_snd_sub parts [] []
  have hF : (storySplitToks parts [] []).1.Sublist parts := by
    rw [hu1]; simpa using hsub1
  have hS : (storySplitToks parts [] []).2.Sublist parts := by
    rw [hu2]; simpa using hsub2
  have hperm : ((storySplitToks parts [] []).1 ++ (storySplitToks parts [] []).2).Perm parts := by
    simpa using storySplitToks_perm parts [] []
  refine ⟨?_, hperm, hF, hS⟩
  have hsim := @storySplitLoop_joinSep parts [] []
    (by intro t ht; cases ht) (by intro t ht; cases ht) hne
  unfold storySplitList
  rw [show joinSep [] = [] from rfl] at hsim
  rw [hsim]
  exact trimLines_joinSep (fun t ht => h t (hF.subset ht)) (fun t ht => h t (hS.subset ht))

/-! ## Lines of a feature block -/

/-- Append a character to the last line of a non-empty line list (specification
device describing `splitLines` of a one-character extension). -/
def appendLast (xs : List (List Char)) (c : Char) : List (List Char) :=
  match xs with
  | [] => [[c]]
  | [l] => [l ++ [c]]
  | l :: ls => l :: appendLast ls c

theorem splitLines_ne_nil (s : List Char) : splitLines s ≠ [] := by
  induction s with
  | nil => simp [splitLines]
  | cons c rest ih =>
    rw [splitLines]
    split
    · simp
    · rcases h : splitLines rest with _ | ⟨l, ls⟩ <;> simp

theorem appendLast_ne_nil (xs : List (List Char)) (c : Char) :
    appendLast xs c ≠ [] := by
  match xs with
  | [] => simp [appendLast]
  | [l] => simp [appendLast]
  | l :: m :: ls => simp [appendLast]

theorem appendLast_cons_of_ne_nil {ls : List (List Char)} (h : ls ≠ [])
    (l : List Char) (c : Char) : appendLast (l :: ls) c = l :: appendLast ls c := by
  match ls with
  | [] => exact absurd rfl h
  | m :: ms => rfl

theorem splitLines_concat {c : Char} (hc : c ≠ '\n') (s : List Char) :
    splitLines (s ++ [c]) = appendLast (splitLines s) c := by
  induction s with
  | nil => simp [splitLines, appendLast, hc]
  | cons a rest ih =>
    show splitLines (a :: (rest ++ [c])) = appendLast (splitLines (a :: rest)) c
    by_cases ha : a = '\n'
    · rw [splitLines, if_pos ha, ih,
        show splitLines (a :: rest) = [] :: splitLines rest by rw [splitLines, if_pos ha],
        appendLast_cons_of_ne_nil (splitLines_ne_nil rest)]
    · rcases h : splitLines rest with _ | ⟨l, ls⟩
      · exact absurd h (splitLines_ne_nil rest)
      · rcases ls with _ | ⟨m, ms⟩
        · rw [splitLines, if_neg ha, ih, h]
          rw [show splitLines (a :: rest) = [a :: l] by rw [splitLines, if_neg ha, h]]
          simp [appendLast]
        · have e1 : appendLast (l :: m :: ms) c = l :: appendLast (m :: ms) c :=
            appendLast_cons_of_ne_nil (by simp) l c
          have e2 : appendLast ((a :: l) :: m :: ms) c = (a :: l) :: appendLast (m :: ms) c :=
            appendLast_cons_of_ne_nil (by simp) (a :: l) c
          rw [splitLines, if_neg ha, ih, h, e1,
            show splitLines (a :: rest) = (a :: l) :: m :: ms by
              rw [splitLines, if_neg ha, h],
            e2]

theorem appendLast_spec {xs : List (List Char)} (h : xs ≠ []) (c : Char) :
    ∃ ys y, xs = ys ++ [y] ∧ appendLast xs c = ys ++ [y ++ [c]] := by
  induction xs with
  | nil => exact absurd rfl h
  | cons l ls ih =>
    rcases ls with _ | ⟨m, ms⟩
    · exact ⟨[], l, by simp, by simp [appendLast]⟩
    · obtain ⟨ys, y, h1, h2⟩ := ih (by simp)
      refine ⟨l :: ys, y, by rw [List.cons_append, ← h1], ?_⟩
      rw [appendLast_cons_of_ne_nil (by simp), h2]
      rfl

theorem filter_concat_getLast? {zs : List (List Char)} {y : List Char}
    (hy : (!y.isEmpty) = true) :
    ((zs ++ [y]).filter (fun l => !l.isEmpty)).getLast? = some y := by
  rw [List.filter_append]
  rw [show List.filter (fun l => !l.isEmpty) [y] = [y] by simp [List.filter, hy]]
  exact List.getLast?_concat _

theorem lastNonEmptyLine_semi_free {s l0 : List Char}
    (hl : lastNonEmptyLine s = some l0) (h0 : l0.getLast? ≠ some ';') :
    s ≠ [] ∧ s.getLast? ≠ some ';' := by
  constructor
  · intro h0s
    rw [h0s] at hl
    simp [lastNonEmptyLine, splitLines, List.filter] at hl
  · intro hsemi
    obtain ⟨ys, rfl⟩ := List.getLast?_eq_some_iff.mp hsemi
    obtain ⟨zs, y, hzy, hap⟩ := appendLast_spec (splitLines_ne_nil ys) ';'
    rw [lastNonEmptyLine, splitLines_concat (by decide) ys, hap,
      filter_concat_getLast? (by simp)] at hl
    cases hl
    exact h0 (List.getLast?_concat _)

theorem repair_fixes_last_line {s l0 : List Char}
    (hl : lastNonEmptyLine s = some l0) (h0 : l0.getLast? ≠ some ';') :
    ∃ l1, lastNonEmptyLine (repairSemicolon s) = some l1 ∧
      l1.getLast? = some ';' ∧ l1.dropLast.getLast? ≠ some ';' := by
  obtain ⟨hne, hlast⟩ := lastNonEmptyLine_semi_free hl h0
  have hrep : repairSemicolon s = s ++ [';'] := by
    rw [repairSemicolon, if_pos ⟨hne, hlast⟩]
  obtain ⟨zs, y, hzy, hap⟩ := appendLast_spec (splitLines_ne_nil s) ';'
  refine ⟨y ++ [';'], ?_, List.getLast?_concat _, ?_⟩
  · rw [hrep, lastNonEmptyLine, splitLines_concat (by decide) s, hap,
      filter_concat_getLast? (by simp)]
  · rw [List.dropLast_concat]
    rcases hy : y with _ | ⟨a, r⟩
    · simp
    · rw [← hy]
      have hlel : lastNonEmptyLine s = some y := by
        rw [lastNonEmptyLine, hzy, filter_concat_getLast? (by rw [hy]; simp)]
      rw [hlel] at hl
      cases hl
      exact h0

theorem repair_noop_iff (s : List Char) :
    repairSemicolon s = s ↔ s = [] ∨ s.getLast? = some ';' := by
  rw [repairSemicolon]
  by_cases h : s ≠ [] ∧ s.getLast? ≠ some ';'
  · rw [if_pos h]
    constructor
    · intro he
      have := congrArg List.length he
      simp at this
    · intro hor
      rcases hor with h1 | h1
      · exact absurd h1 h.1
      · exact absurd h1 h.2
  · rw [if_neg h]
    push_neg at h
    constructor
    · intro _
      by_cases h1 : s = []
      · exact Or.inl h1
      · exact Or.inr (h h1)
    · intro _
      rfl

/-! ## Pipe-strip properties -/

theorem head?_jsTrim_not_ws {l : List Char} {c : Char}
    (h : (jsTrim l).head? = some c) : jsWs c = false := by
  have hne : jsTrim l ≠ [] := by
    intro h0
    rw [h0] at h
    cases h
  have hpre := trimEnd_prefix_rest (trimStart l)
  have hhd : (trimStart l).head? = (jsTrim l).head? := by
    conv_lhs => rw [hpre]
    exact List.head?_append_of_ne_nil _ hne
  have h2 : (trimStart l).head? = some c := by rw [hhd, h]
  exact head?_dropWhile_ws h2

theorem jsTrim_idem (l : List Char) : jsTrim (jsTrim l) = jsTrim l :=
  jsTrim_eq_self (fun _ hc => head?_jsTrim_not_ws hc)
    (fun _ hc => getLast?_jsTrim_not_ws hc)

theorem stripPipes_eq (s : List Char) :
    stripPipes s =
      (if (if (jsTrim s).head? = some '|' then jsTrim ((jsTrim s).drop 1)
            else jsTrim s).getLast? = some '|'
       then jsTrim (if (jsTrim s).head? = some '|' then jsTrim ((jsTrim s).drop 1)
            else jsTrim s).dropLast
       else (if (jsTrim s).head? = some '|' then jsTrim ((jsTrim s).drop 1)
            else jsTrim s)) := rfl

theorem stripPipes_is_trimmed (s : List Char) :
    jsTrim (stripPipes s) = stripPipes s := by
  rw [stripPipes_eq]
  by_cases hA : (jsTrim s).head? = some '|'
  · rw [if_pos hA]
    split
    · exact jsTrim_idem _
    · exact jsTrim_idem _
  · rw [if_neg hA]
    split
    · exact jsTrim_idem _
    · exact jsTrim_idem _

theorem stripPipes_stable {r : List Char} (htr : jsTrim r = r)
    (h1 : r.head? ≠ some '|') (h2 : r.getLast? ≠ some '|') : stripPipes r = r := by
  rw [stripPipes_eq, htr, if_neg h1, if_neg h2]

/-! ## Claim theorems -/

/-- C1 (counterexample): the claim places a token longer than 47 characters
whole on the first output line; on the 48-character token `a…a` the splitter
leaves the first line empty and puts the token on the second line. -/
theorem oversized_token_on_second_line :
    (storySplit (List.replicate 48 'a')).1 = [] ∧
    (storySplit (List.replicate 48 'a')).2 = List.replicate 48 'a' := by decide

/-- C1 (amended): for every caption the first output line's length after
trimming is at most 47 characters, with no exception; in particular a token
longer than 47 characters is never placed on the first line (the greedy guard
diverts it, whole, to the second line). -/
theorem first_line_budget (caption : List Char) :
    ((storySplit caption).1).length ≤ 47 := by
  show ((trimLines (storySplitLoop (splitSep caption) [] [])).1).length ≤ 47
  exact le_trans (trimLines_fst_length _) (storySplitLoop_fst_length (by simp))

/-- C2 (counterexample): on `a^30 | b^30 | ccccc` the splitter puts `a^30` and
`ccccc` on the first line and `b^30` on the second, so re-splitting the two
output lines (either their bare concatenation or line by line) does not
reproduce the original token sequence in order. -/
theorem splitter_reorders_tokens :
    (storySplit (strOf "aaaaaaaaaaaaaaaaaaaaaaaaaaaaaa | bbbbbbbbbbbbbbbbbbbbbbbbbbbbbb | ccccc")).1 =
      strOf "aaaaaaaaaaaaaaaaaaaaaaaaaaaaaa | ccccc" ∧
    (storySplit (strOf "aaaaaaaaaaaaaaaaaaaaaaaaaaaaaa | bbbbbbbbbbbbbbbbbbbbbbbbbbbbbb | ccccc")).2 =
      strOf "bbbbbbbbbbbbbbbbbbbbbbbbbbbbbb" ∧
    splitSep ((storySplit (strOf "aaaaaaaaaaaaaaaaaaaaaaaaaaaaaa | bbbbbbbbbbbbbbbbbbbbbbbbbbbbbb | ccccc")).1 ++
        (storySplit (strOf "aaaaaaaaaaaaaaaaaaaaaaaaaaaaaa | bbbbbbbbbbbbbbbbbbbbbbbbbbbbbb | ccccc")).2) ≠
      splitSep (strOf "aaaaaaaaaaaaaaaaaaaaaaaaaaaaaa | bbbbbbbbbbbbbbbbbbbbbbbbbbbbbb | ccccc") ∧
    recoveredToks (storySplit (strOf "aaaaaaaaaaaaaaaaaaaaaaaaaaaaaa | bbbbbbbbbbbbbbbbbbbbbbbbbbbbbb | ccccc")).1 ++
        recoveredToks (storySplit (strOf "aaaaaaaaaaaaaaaaaaaaaaaaaaaaaa | bbbbbbbbbbbbbbbbbbbbbbbbbbbbbb | ccccc")).2 ≠
      splitSep (strOf "aaaaaaaaaaaaaaaaaaaaaaaaaaaaaa | bbbbbbbbbbbbbbbbbbbbbbbbbbbbbb | ccccc") := by
  decide

/-- C2 (amended): for every caption whose `" | "`-tokens are non-empty,
trimmed and do not end in a pipe, the two output lines are the `" | "`-joins
of two subsequences of the token list (so order is kept within each line) that
together carry every token exactly once; order may interleave across lines. -/
theorem splitter_line_coverage (caption : List Char)
    (h : forall p, p ∈ splitSep caption → p ≠ [] ∧ jsTrim p = p ∧ p.getLast? ≠ some '|') :
    ∃ l1 l2 : List (List Char),
      (storySplit caption).1 = joinSep l1 ∧ (storySplit caption).2 = joinSep l2 ∧
      (l1 ++ l2).Perm (splitSep caption) ∧
      l1.Sublist (splitSep caption) ∧ l2.Sublist (splitSep caption) := by
  obtain ⟨heq, hperm, h1, h2⟩ := storySplitList_spec h
  refine ⟨_, _, ?_, ?_, hperm, h1, h2⟩
  · rw [show storySplit caption = storySplitList (splitSep caption) from rfl, heq]
  · rw [show storySplit caption = storySplitList (splitSep caption) from rfl, heq]

/-- Witness for C2 (amended) at the spec's example caption. -/
theorem splitter_line_coverage_witness :
    (forall p, p ∈ splitSep (strOf "04 Quartos | 02 Suítes | Piscina") →
      p ≠ [] ∧ jsTrim p = p ∧ p.getLast? ≠ some '|') ∧
    (∃ l1 l2 : List (List Char),
      (storySplit (strOf "04 Quartos | 02 Suítes | Piscina")).1 = joinSep l1 ∧
      (storySplit (strOf "04 Quartos | 02 Suítes | Piscina")).2 = joinSep l2 ∧
      (l1 ++ l2).Perm (splitSep (strOf "04 Quartos | 02 Suítes | Piscina")) ∧
      l1.Sublist (splitSep (strOf "04 Quartos | 02 Suítes | Piscina")) ∧
      l2.Sublist (splitSep (strOf "04 Quartos | 02 Suítes | Piscina"))) :=
  ⟨by decide, splitter_line_coverage _ (by decide)⟩

/-- C3 (counterexample): `"a;\n"` is correctly terminated in the claim's sense
(its last non-empty line is `"a;"`), yet the repair step is not a no-op: it
checks the raw string end, sees `'\n'`, and appends another semicolon. -/
theorem repair_not_noop_on_trailing_newline :
    lastNonEmptyLine (strOf "a;\n") = some (strOf "a;") ∧
    (strOf "a;").getLast? = some ';' ∧
    repairSemicolon (strOf "a;\n") = strOf "a;\n;" ∧
    repairSemicolon (strOf "a;\n") ≠ strOf "a;\n" := by decide

/-- C3 (amended): when the last non-empty line does not end with a semicolon,
the repair yields a string whose last non-empty line ends with exactly one
semicolon; but the repair is a no-op exactly when the string is empty or its
raw end is `';'` — a correctly terminated block followed by trailing
whitespace or newlines is modified. -/
theorem repair_semicolon_last_line (s : List Char) :
    (∀ l0, lastNonEmptyLine s = some l0 → l0.getLast? ≠ some ';' →
      ∃ l1, lastNonEmptyLine (repairSemicolon s) = some l1 ∧
        l1.getLast? = some ';' ∧ l1.dropLast.getLast? ≠ some ';') ∧
    (repairSemicolon s = s ↔ s = [] ∨ s.getLast? = some ';') :=
  ⟨fun _ hl h0 => repair_fixes_last_line hl h0, repair_noop_iff s⟩

/-- Witness for C3 (amended): a one-line block missing its semicolon. -/
theorem repair_semicolon_last_line_witness :
    (∃ l1, lastNonEmptyLine (repairSemicolon (strOf "✅ 3 quartos")) = some l1 ∧
      l1.getLast? = some ';' ∧ l1.dropLast.getLast? ≠ some ';') ∧
    repairSemicolon (strOf "abc;") = strOf "abc;" :=
  ⟨(repair_semicolon_last_line (strOf "✅ 3 quartos")).1 (strOf "✅ 3 quartos")
      (by decide) (by decide),
   (repair_semicolon_last_line (strOf "abc;")).2.mpr (by decide)⟩

/-- C4 (counterexample): with stacked pipes the strip removes only one pipe
per side: `" ||a|| "` yields `"|a|"`, which still has a leading and a trailing
pipe, and a second application changes it again (to `"a"`), so the strip is
neither pipe-free nor idempotent as claimed. -/
theorem strip_pipes_not_idempotent :
    stripPipes (strOf " ||a|| ") = strOf "|a|" ∧
    (strOf "|a|").head? = some '|' ∧ (strOf "|a|").getLast? = some '|' ∧
    stripPipes (stripPipes (strOf " ||a|| ")) ≠ stripPipes (strOf " ||a|| ") := by
  decide

/-- C4 (amended): the strip always yields a fully trimmed string (no boundary
whitespace), and it removes at most one leading and one trailing pipe; when
its result carries no leading or trailing pipe — in particular for inputs with
at most one stray pipe per side — re-applying the strip is a no-op. -/
theorem strip_pipes_props (s : List Char) :
    jsTrim (stripPipes s) = stripPipes s ∧
    ((stripPipes s).head? ≠ some '|' → (stripPipes s).getLast? ≠ some '|' →
      stripPipes (stripPipes s) = stripPipes s) :=
  ⟨stripPipes_is_trimmed s,
   fun h1 h2 => stripPipes_stable (stripPipes_is_trimmed s) h1 h2⟩

/-- Witness for C4 (amended) at a caption with one stray pipe on each side. -/
theorem strip_pipes_props_witness :
    jsTrim (stripPipes (strOf " | 04 Quartos | ")) = stripPipes (strOf " | 04 Quartos | ") ∧
    stripPipes (stripPipes (strOf " | 04 Quartos | ")) = stripPipes (strOf " | 04 Quartos | ") :=
  ⟨(strip_pipes_props _).1, (strip_pipes_props _).2 (by decide) (by decide)⟩

/-- C5: the price `"350.000,00"` formats to the BRL-grouped `R$ 350.000,00`
(with Intl's no-break space), and the non-numeric price `"abc"` is returned
unchanged. -/
theorem currency_format_and_fallback :
    formatCurrency (strOf "350.000,00") = strOf "R$ 350.000,00" ∧
    formatCurrency (strOf "abc") = strOf "abc" := by decide

set_option maxRecDepth 10000 in
/-- C6: end-to-end assembly on the spec's example input: the description
starts with the upper-cased location, contains the code line, the features
header followed by the feature block verbatim, both area lines and the
BRL-formatted value line, and ends without a trailing newline. -/
theorem assembly_example :
    (let out := assembleDescription (strOf "AP0123") (strOf "350.000,00")
      (strOf "Centro") (strOf "Belo Horizonte") (strOf "")
      (strOf "✅ 3 quartos;\n✅ 2 vagas;") 120 90
    startsList (strOf "CENTRO - BELO HORIZONTE/MG") out = true ∧
    hasSub (strOf "Código do imóvel: AP0123") out = true ∧
    hasSub (strOf "CARACTERÍSTICAS PRINCIPAIS:\n✅ 3 quartos;\n✅ 2 vagas;") out = true ∧
    hasSub (strOf "Área Total: 120 m²") out = true ∧
    hasSub (strOf "Área Privada: 90 m²") out = true ∧
    hasSub (strOf "💰VALOR: R$ 350.000,00") out = true ∧
    out.getLast? ≠ some '\n') := by decide

/-- C7: when the feature-formatting adapter result is missing or its text
field is empty, `onSubmit` shows the error toast and the displayed description
stays cleared — no partially assembled text is ever shown. -/
theorem upstream_empty_atomic (codigo valor bairro cidade descricaoAdicional : List Char)
    (areaTotal areaPrivada : ℕ) (aiResult : Option (List Char))
    (h : aiResult = none ∨ aiResult = some []) :
    onSubmitResult codigo valor bairro cidade descricaoAdicional
      areaTotal areaPrivada aiResult = ([], true) := by
  rcases h with h | h <;> rw [h] <;> simp [onSubmitResult]

/-- Witness for C7 at the example form data, for both failure shapes. -/
theorem upstream_empty_atomic_witness :
    onSubmitResult (strOf "AP0123") (strOf "350.000,00") (strOf "Centro")
      (strOf "Belo Horizonte") (strOf "") 120 90 none = ([], true) ∧
    onSubmitResult (strOf "AP0123") (strOf "350.000,00") (strOf "Centro")
      (strOf "Belo Horizonte") (strOf "") 120 90 (some []) = ([], true) :=
  ⟨upstream_empty_atomic _ _ _ _ _ _ _ _ (Or.inl rfl),
   upstream_empty_atomic _ _ _ _ _ _ _ _ (Or.inr rfl)⟩

/-- C8 (counterexample): the token list `["", "a", b^44]` is token-wise
trimmed and pipe-free at the end, yet the splitter's output lines are
`("a", b^44)` — the empty token has been dropped, so the tokens read back from
the two lines are not a permutation of the input tokens. -/
theorem token_dropped_by_splitter :
    (forall p, p ∈ [[], ['a'], List.replicate 44 'b'] →
      jsTrim p = p ∧ p.getLast? ≠ some '|') ∧
    (storySplitList [[], ['a'], List.replicate 44 'b']).1 = ['a'] ∧
    (storySplitList [[], ['a'], List.replicate 44 'b']).2 = List.replicate 44 'b' ∧
    ¬ ((recoveredToks (storySplitList [[], ['a'], List.replicate 44 'b']).1 ++
        recoveredToks (storySplitList [[], ['a'], List.replicate 44 'b']).2).Perm
      [[], ['a'], List.replicate 44 'b']) := by decide

/-- C8 (amended): for every list of non-empty, trimmed tokens not ending in a
pipe, the two output lines are `" | "`-joins of token lists whose
concatenation is a permutation of the input — every input token appears
exactly once across the two lines, also when tokens land out of their
original relative order. -/
theorem splitter_exactly_once (parts : List (List Char))
    (h : forall p, p ∈ parts → p ≠ [] ∧ jsTrim p = p ∧ p.getLast? ≠ some '|') :
    ∃ l1 l2 : List (List Char),
      storySplitList parts = (joinSep l1, joinSep l2) ∧
      (l1 ++ l2).Perm parts := by
  obtain ⟨heq, hperm, -, -⟩ := storySplitList_spec h
  exact ⟨_, _, heq, hperm⟩

/-- Witness for C8 (amended) at a two-token list. -/
theorem splitter_exactly_once_witness :
    (forall p, p ∈ [strOf "04 Quartos", strOf "Piscina"] →
      p ≠ [] ∧ jsTrim p = p ∧ p.getLast? ≠ some '|') ∧
    ∃ l1 l2 : List (List Char),
      storySplitList [strOf "04 Quartos", strOf "Piscina"] = (joinSep l1, joinSep l2) ∧
      (l1 ++ l2).Perm [strOf "04 Quartos", strOf "Piscina"] :=
  ⟨by decide, splitter_exactly_once _ (by decide)⟩

/-- C9: on a non-empty input the repair step returns either the input
unchanged or the input with exactly one `';'` appended — the original string
is preserved as a prefix and no earlier character is modified. -/
theorem repair_append_only (s : List Char) (_h : s ≠ []) :
    repairSemicolon s = s ∨ repairSemicolon s = s ++ [';'] := by
  rw [repairSemicolon]
  split
  · exact Or.inr rfl
  · exact Or.inl rfl

/-- Witness for C9 at `"abc"`. -/
theorem repair_append_only_witness :
    strOf "abc" ≠ [] ∧
    (repairSemicolon (strOf "abc") = strOf "abc" ∨
      repairSemicolon (strOf "abc") = strOf "abc" ++ [';']) :=
  ⟨by decide, repair_append_only _ (by decide)⟩

/-- C10: the trailing-pipe strip applies only to the first line: whenever the
greedy loop leaves the second line ending in `'|'`, the returned second line
still ends in `'|'` (trimming does not touch it). -/
theorem second_line_keeps_pipe (caption : List Char)
    (h : ((storySplitLoop (splitSep caption) [] []).2).getLast? = some '|') :
    ((storySplit caption).2).getLast? = some '|' := by
  have h2 : (storySplit caption).2 =
      jsTrim ((storySplitLoop (splitSep caption) [] []).2) := rfl
  rw [h2]
  exact jsTrim_getLast? h (by decide)

/-- Witness for C10: a caption whose oversized second token ends in a pipe. -/
theorem second_line_keeps_pipe_witness :
    ((storySplitLoop (splitSep (strOf "x | " ++ List.replicate 43 'b' ++ ['|'])) [] []).2).getLast? = some '|' ∧
    ((storySplit (strOf "x | " ++ List.replicate 43 'b' ++ ['|'])).2).getLast? = some '|' :=
  ⟨by decide, second_line_keeps_pipe _ (by decide)⟩
